import Mathlib

/-!
Verification of the result-comparison and parameter-tokenization subsystem of
the benchmarking tool (src/hyperfine/internal.rs).

Rust f64 values are modelled by the type F: either NaN or a real number.
Infinities and rounding are not modelled; division by zero and the square root
of a negative number are mapped to NaN (no verified property exercises those
cases, every hypothesis keeps the divisors nonzero and the radicands
non-negative).  Rust String values are modelled as List Char.
-/

namespace Hyperfine

/-- Model of an f64 value: NaN, or a (finite) real number. -/
inductive F : Type where
  | nan : F
  | val : ℝ → F

namespace F

/-- Model of f64 addition: NaN absorbs. -/
noncomputable def add : F → F → F
  | val a, val b => val (a + b)
  | _, _ => nan

/-- Model of f64 subtraction: NaN absorbs. -/
noncomputable def sub : F → F → F
  | val a, val b => val (a - b)
  | _, _ => nan

/-- Model of f64 multiplication: NaN absorbs. -/
noncomputable def mul : F → F → F
  | val a, val b => val (a * b)
  | _, _ => nan

/-- Model of f64 division: NaN absorbs; division by zero is mapped to NaN. -/
noncomputable def div : F → F → F
  | val a, val b => if b = 0 then nan else val (a / b)
  | _, _ => nan

/-- Model of Rust f64::powi with exponent 2 (squaring). -/
noncomputable def powi2 : F → F
  | val a => val (a ^ 2)
  | nan => nan

/-- Model of f64::sqrt: NaN absorbs, and a negative radicand gives NaN. -/
noncomputable def sqrt : F → F
  | val a => if a < 0 then nan else val (Real.sqrt a)
  | nan => nan

/-- Model of f64::partial_cmp: none exactly when an operand is NaN. -/
noncomputable def partCmp : F → F → Option Ordering
  | val a, val b =>
      some (if a < b then Ordering.lt else if a = b then Ordering.eq else Ordering.gt)
  | _, _ => none

/-- Model of IEEE equality on f64 (PartialEq): NaN is equal to nothing. -/
noncomputable def beq : F → F → Bool
  | val a, val b => decide (a = b)
  | _, _ => false

/-- Real number carried by a value, 0 for NaN; used only to state theorems. -/
noncomputable def toReal : F → ℝ
  | val a => a
  | nan => 0

/-- The value is an actual number, not NaN. -/
def IsVal (x : F) : Prop := ∃ a, x = val a

end F

/-- Modelled from the spec: the BenchmarkResult record of
src/hyperfine/types.rs, which is not among the sources in scope.  The field
list follows the spec's data model and the record construction in the unit
test of internal.rs; all timing statistics are f64 seconds. -/
structure BenchmarkResult : Type where
  command : String
  mean : F
  stddev : F
  median : F
  user : F
  system : F
  min : F
  max : F
  times : Option (List F)
  parameter : Option String

/-- Modelled from the spec: element-wise IEEE equality of two f64 vectors
(Vec PartialEq), used for the times field. -/
noncomputable def listBeq : List F → List F → Bool
  | [], [] => true
  | x :: xs, y :: ys => F.beq x y && listBeq xs ys
  | _, _ => false

/-- Modelled from the spec: IEEE equality of the optional times vectors. -/
noncomputable def optTimesBeq : Option (List F) → Option (List F) → Bool
  | none, none => true
  | some l, some r => listBeq l r
  | _, _ => false

/-- Modelled from the spec: value equality of the full result record (the
derived PartialEq of BenchmarkResult in src/hyperfine/types.rs), field for
field with IEEE semantics on the f64 fields. -/
noncomputable def BenchmarkResult.beq (l r : BenchmarkResult) : Bool :=
  decide (l.command = r.command) && F.beq l.mean r.mean && F.beq l.stddev r.stddev &&
  F.beq l.median r.median && F.beq l.user r.user && F.beq l.system r.system &&
  F.beq l.min r.min && F.beq l.max r.max && optTimesBeq l.times r.times &&
  decide (l.parameter = r.parameter)

/-- Part of the spec's data model: the optional times vector holds no NaN. -/
def NaNFreeTimes : Option (List F) → Prop
  | none => True
  | some l => ∀ x ∈ l, F.IsVal x

/-- All float fields of the record are numbers, no NaN — the situation the
spec's data model describes (all statistics are real-valued seconds). -/
def NaNFree (r : BenchmarkResult) : Prop :=
  F.IsVal r.mean ∧ F.IsVal r.stddev ∧ F.IsVal r.median ∧ F.IsVal r.user ∧
  F.IsVal r.system ∧ F.IsVal r.min ∧ F.IsVal r.max ∧ NaNFreeTimes r.times

/-- Threshold for warning about fast execution time (a Second is an f64). -/
noncomputable def MIN_EXECUTION_TIME : F := F.val (5e-3 : ℝ)

/-- The annotated result record BenchmarkResultWithRelativeSpeed; the Rust
reference to the underlying result is modelled by a copy of the record. -/
structure BenchmarkResultWithRelativeSpeed : Type where
  result : BenchmarkResult
  relative_speed : F
  relative_speed_stddev : F
  percent_change : F
  is_fastest : Bool

/-- Model of Rust Iterator::min_by: none on an empty iterator, otherwise the
first minimal element (on ties the earlier element is kept). -/
def minBy {α : Type} (cmp : α → α → Ordering) : List α → Option α
  | [] => none
  | x :: xs => some (xs.foldl (fun acc y => if cmp y acc = Ordering.lt then y else acc) x)

/-- The comparator compare_mean_time: partial_cmp on the means, any comparison
failure (NaN) treated as Equal. -/
noncomputable def compare_mean_time (l r : BenchmarkResult) : Ordering :=
  (F.partCmp l.mean r.mean).getD Ordering.eq

/-- compute_relative_speed; the expect on an empty input (a panic) is modelled
by none. -/
noncomputable def compute_relative_speed (results : List BenchmarkResult) :
    Option (List BenchmarkResultWithRelativeSpeed) :=
  (minBy compare_mean_time results).map fun fastest =>
    results.map fun result =>
      { result := result
        relative_speed := F.div result.mean fastest.mean
        relative_speed_stddev :=
          F.mul (F.div result.mean fastest.mean)
            (F.sqrt (F.add (F.powi2 (F.div result.stddev result.mean))
              (F.powi2 (F.div fastest.stddev fastest.mean))))
        percent_change :=
          F.div (F.mul (F.val 100) (F.sub result.mean fastest.mean)) result.mean
        is_fastest := BenchmarkResult.beq result fastest }

/-- One printed comparison line: the data interpolated into the format string
of write_benchmark_comparison (exact decimal formatting is not modelled). -/
structure ComparisonLine : Type where
  relative_speed : F
  relative_speed_stddev : F
  command : String
  percent_change : F

/-- Observable output of write_benchmark_comparison. -/
inductive ComparisonOutput : Type where
  | noOutput : ComparisonOutput
  | summary (fastestCommand : String) (lines : List ComparisonLine) : ComparisonOutput

/-- write_benchmark_comparison: fewer than two results print nothing;
otherwise the annotated results are sorted stably by mean time and rendered.
The outer none models a panic (it would arise only from the expect inside
compute_relative_speed or from indexing an empty sorted list). -/
noncomputable def write_benchmark_comparison (results : List BenchmarkResult) :
    Option ComparisonOutput :=
  if results.length < 2 then some ComparisonOutput.noOutput
  else
    (compute_relative_speed results).bind fun annotated_results =>
      match annotated_results.mergeSort
          (fun l r => compare_mean_time l.result r.result != Ordering.gt) with
      | [] => none
      | fastest :: others =>
          some (ComparisonOutput.summary fastest.result.command
            (others.map fun item =>
              { relative_speed := item.relative_speed
                relative_speed_stddev := item.relative_speed_stddev
                command := item.result.command
                percent_change := item.percent_change }))

/-- The max helper for f64 slices: Iterator::max_by with the panicking
comparator partial_cmp(...).unwrap(); none models a panic (a NaN comparison or
the unwrap on an empty slice).  On ties the later element is kept. -/
noncomputable def max (vals : List F) : Option F :=
  match vals with
  | [] => none
  | x :: xs =>
      xs.foldl (fun acc y => acc.bind fun a =>
        (F.partCmp y a).map fun o => if o = Ordering.lt then a else y) (some x)

/-- The min helper for f64 slices: Iterator::min_by with the panicking
comparator partial_cmp(...).unwrap(); none models a panic.  On ties the
earlier element is kept. -/
noncomputable def min (vals : List F) : Option F :=
  match vals with
  | [] => none
  | x :: xs =>
      xs.foldl (fun acc y => acc.bind fun a =>
        (F.partCmp y a).map fun o => if o = Ordering.lt then y else a) (some x)

/-- The scanning loop of tokenize: buf is the current token buffer, the second
argument the remaining input. -/
def tokAux (buf : List Char) : List Char → List (List Char)
  | [] => [buf]
  | '\\' :: rest =>
      match rest with
      | [] => [buf ++ ['\\']]
      | c2 :: rest2 =>
          if c2 = ',' ∨ c2 = '\\' then tokAux (buf ++ [c2]) rest2
          else tokAux (buf ++ ['\\', c2]) rest2
  | ',' :: rest => buf :: tokAux [] rest
  | c :: rest => tokAux (buf ++ [c]) rest

/-- tokenize: split a raw value string at unescaped commas. -/
def tokenize (values : List Char) : List (List Char) :=
  tokAux [] values

/-- Number of unescaped commas of the input, the spec's counting notion: a
backslash consumes the following character, every remaining comma counts. -/
def unescapedCommas : List Char → Nat
  | [] => 0
  | '\\' :: rest =>
      match rest with
      | [] => 0
      | _ :: rest2 => unescapedCommas rest2
  | ',' :: rest => unescapedCommas rest + 1
  | _ :: rest => unescapedCommas rest

/-- The scan of the input ends on a backslash that would consume the next
character: a character appended behind such an input is swallowed by the
escape instead of being read on its own. -/
def endsInOpenEscape : List Char → Bool
  | [] => false
  | '\\' :: rest =>
      match rest with
      | [] => true
      | _ :: rest2 => endsInOpenEscape rest2
  | _ :: rest => endsInOpenEscape rest

/-- A concrete benchmark result: every statistic is 1 second. -/
noncomputable def sampleResult : BenchmarkResult :=
  { command := "cmd1", mean := F.val 1, stddev := F.val 1, median := F.val 1,
    user := F.val 1, system := F.val 0, min := F.val 1, max := F.val 1,
    times := none, parameter := none }

/-- A concrete benchmark result with mean 2 seconds. -/
noncomputable def sampleResult2 : BenchmarkResult :=
  { command := "cmd2", mean := F.val 2, stddev := F.val 1, median := F.val 2,
    user := F.val 2, system := F.val 0, min := F.val 2, max := F.val 2,
    times := none, parameter := none }

/-- A concrete benchmark result whose mean is NaN. -/
noncomputable def nanResult : BenchmarkResult :=
  { command := "cmd3", mean := F.nan, stddev := F.val 1, median := F.val 1,
    user := F.val 1, system := F.val 0, min := F.val 1, max := F.val 1,
    times := none, parameter := none }

/-! Lemmas about the float model. -/

theorem sampleResult_nanFree : NaNFree sampleResult :=
  ⟨⟨1, rfl⟩, ⟨1, rfl⟩, ⟨1, rfl⟩, ⟨1, rfl⟩, ⟨0, rfl⟩, ⟨1, rfl⟩, ⟨1, rfl⟩, trivial⟩

theorem sampleResult2_nanFree : NaNFree sampleResult2 :=
  ⟨⟨2, rfl⟩, ⟨1, rfl⟩, ⟨2, rfl⟩, ⟨2, rfl⟩, ⟨0, rfl⟩, ⟨2, rfl⟩, ⟨2, rfl⟩, trivial⟩

theorem F.toReal_val (a : ℝ) : (F.val a).toReal = a := rfl

theorem F.div_val (a b : ℝ) (hb : b ≠ 0) : F.div (F.val a) (F.val b) = F.val (a / b) := by
  simp [F.div, hb]

theorem F.sub_val (a b : ℝ) : F.sub (F.val a) (F.val b) = F.val (a - b) := rfl

theorem F.mul_val (a b : ℝ) : F.mul (F.val a) (F.val b) = F.val (a * b) := rfl

theorem F.add_val (a b : ℝ) : F.add (F.val a) (F.val b) = F.val (a + b) := rfl

theorem F.powi2_val (a : ℝ) : F.powi2 (F.val a) = F.val (a ^ 2) := rfl

theorem F.sqrt_val (a : ℝ) (h : 0 ≤ a) : F.sqrt (F.val a) = F.val (Real.sqrt a) := by
  simp [F.sqrt, not_lt.mpr h]

theorem F.beq_val_iff (a : ℝ) (x : F) : (F.beq (F.val a) x = true) ↔ x = F.val a := by
  cases x with
  | nan => simp [F.beq]
  | val b => simp [F.beq, eq_comm]

theorem listBeq_true_iff (l : List F) (hl : ∀ x ∈ l, F.IsVal x) :
    ∀ m, (listBeq l m = true) ↔ m = l := by
  induction l with
  | nil => intro m; cases m <;> simp [listBeq]
  | cons x xs ih =>
      intro m
      obtain ⟨a, rfl⟩ := hl x (by simp)
      have hxs : ∀ y ∈ xs, F.IsVal y := fun y hy => hl y (by simp [hy])
      cases m with
      | nil => simp [listBeq]
      | cons y ys => simp [listBeq, F.beq_val_iff, ih hxs]

theorem optTimesBeq_true_iff (t : Option (List F)) (ht : NaNFreeTimes t) :
    ∀ u, (optTimesBeq t u = true) ↔ u = t := by
  cases t with
  | none => intro u; cases u <;> simp [optTimesBeq]
  | some l =>
      intro u
      cases u with
      | none => simp [optTimesBeq]
      | some m => simpa [optTimesBeq] using listBeq_true_iff l ht m

theorem beq_true_iff (r s : BenchmarkResult) (hr : NaNFree r) :
    (BenchmarkResult.beq r s = true) ↔ s = r := by
  obtain ⟨⟨m, hm⟩, ⟨sd, hsd⟩, ⟨md, hmd⟩, ⟨u, hu⟩, ⟨sy, hsy⟩, ⟨mn, hmn⟩, ⟨mx, hmx⟩, ht⟩ := hr
  constructor
  · intro h
    simp only [BenchmarkResult.beq, Bool.and_eq_true, decide_eq_true_eq] at h
    obtain ⟨⟨⟨⟨⟨⟨⟨⟨⟨h1, h2⟩, h3⟩, h4⟩, h5⟩, h6⟩, h7⟩, h8⟩, h9⟩, h10⟩ := h
    rw [hm] at h2
    rw [hsd] at h3
    rw [hmd] at h4
    rw [hu] at h5
    rw [hsy] at h6
    rw [hmn] at h7
    rw [hmx] at h8
    have e2 := (F.beq_val_iff _ _).mp h2
    have e3 := (F.beq_val_iff _ _).mp h3
    have e4 := (F.beq_val_iff _ _).mp h4
    have e5 := (F.beq_val_iff _ _).mp h5
    have e6 := (F.beq_val_iff _ _).mp h6
    have e7 := (F.beq_val_iff _ _).mp h7
    have e8 := (F.beq_val_iff _ _).mp h8
    have e9 := (optTimesBeq_true_iff r.times ht s.times).mp h9
    cases r
    cases s
    simp_all
  · rintro rfl
    simp only [BenchmarkResult.beq, Bool.and_eq_true, decide_eq_true_eq]
    refine ⟨⟨⟨⟨⟨⟨⟨⟨⟨?_, ?_⟩, ?_⟩, ?_⟩, ?_⟩, ?_⟩, ?_⟩, ?_⟩, ?_⟩, ?_⟩
    · trivial
    · rw [hm]; exact (F.beq_val_iff _ _).mpr rfl
    · rw [hsd]; exact (F.beq_val_iff _ _).mpr rfl
    · rw [hmd]; exact (F.beq_val_iff _ _).mpr rfl
    · rw [hu]; exact (F.beq_val_iff _ _).mpr rfl
    · rw [hsy]; exact (F.beq_val_iff _ _).mpr rfl
    · rw [hmn]; exact (F.beq_val_iff _ _).mpr rfl
    · rw [hmx]; exact (F.beq_val_iff _ _).mpr rfl
    · exact (optTimesBeq_true_iff _ ht _).mpr rfl
    · trivial

/-! Lemmas about the comparator and the minimum selection. -/

theorem compare_mean_time_val (a b : ℝ) (l r : BenchmarkResult)
    (hl : l.mean = F.val a) (hr : r.mean = F.val b) :
    compare_mean_time l r =
      (if a < b then Ordering.lt else if a = b then Ordering.eq else Ordering.gt) := by
  simp [compare_mean_time, hl, hr, F.partCmp]

theorem minBy_fold_spec (xs : List BenchmarkResult) :
    ∀ a : BenchmarkResult, (∀ r ∈ xs, F.IsVal r.mean) → F.IsVal a.mean →
    ∃ f, xs.foldl (fun acc y => if compare_mean_time y acc = Ordering.lt then y else acc) a = f ∧
      (f = a ∨ f ∈ xs) ∧ F.IsVal f.mean ∧ f.mean.toReal ≤ a.mean.toReal ∧
      ∀ r ∈ xs, f.mean.toReal ≤ r.mean.toReal := by
  induction xs with
  | nil => intro a _ ha; exact ⟨a, rfl, Or.inl rfl, ha, le_refl _, by simp⟩
  | cons y ys ih =>
      intro a hxs ha
      obtain ⟨b, hb⟩ := hxs y (by simp)
      obtain ⟨c, hc⟩ := ha
      have hys : ∀ r ∈ ys, F.IsVal r.mean := fun r hrr => hxs r (by simp [hrr])
      have hstep : (if compare_mean_time y a = Ordering.lt then y else a) =
          if b < c then y else a := by
        rw [compare_mean_time_val b c y a hb hc]
        by_cases h1 : b < c
        · simp [h1]
        · by_cases h2 : b = c <;> simp [h1, h2]
      by_cases hlt : b < c
      · obtain ⟨f, hfold, hmem, hfin, hfle, hall⟩ := ih y hys ⟨b, hb⟩
        refine ⟨f, ?_, ?_, hfin, ?_, ?_⟩
        · simpa [List.foldl_cons, hstep, hlt] using hfold
        · rcases hmem with rfl | h
          · exact Or.inr (by simp)
          · exact Or.inr (by simp [h])
        · calc f.mean.toReal ≤ y.mean.toReal := hfle
            _ ≤ a.mean.toReal := by simp [hb, hc, F.toReal_val, le_of_lt hlt]
        · intro r hrr
          rcases List.mem_cons.mp hrr with rfl | h
          · exact hfle
          · exact hall r h
      · obtain ⟨f, hfold, hmem, hfin, hfle, hall⟩ := ih a hys ⟨c, hc⟩
        refine ⟨f, ?_, ?_, hfin, hfle, ?_⟩
        · simpa [List.foldl_cons, hstep, hlt] using hfold
        · rcases hmem with rfl | h
          · exact Or.inl rfl
          · exact Or.inr (by simp [h])
        · intro r hrr
          rcases List.mem_cons.mp hrr with rfl | h
          · calc f.mean.toReal ≤ a.mean.toReal := hfle
              _ ≤ r.mean.toReal := by simp [hb, hc, F.toReal_val, not_lt.mp hlt]
          · exact hall r h

theorem minBy_mean_spec (results : List BenchmarkResult) (hne : results ≠ [])
    (hm : ∀ r ∈ results, F.IsVal r.mean) :
    ∃ f, minBy compare_mean_time results = some f ∧ f ∈ results ∧
      ∀ r ∈ results, f.mean.toReal ≤ r.mean.toReal := by
  match results, hne with
  | x :: xs, _ =>
      obtain ⟨f, hfold, hmem, _, hfle, hall⟩ :=
        minBy_fold_spec xs x (fun r hrr => hm r (by simp [hrr])) (hm x (by simp))
      refine ⟨f, by simp [minBy, hfold], ?_, ?_⟩
      · rcases hmem with rfl | h
        · simp
        · simp [h]
      · intro r hrr
        rcases List.mem_cons.mp hrr with rfl | h
        · exact hfle
        · exact hall r h

theorem minBy_isSome {α : Type} (cmp : α → α → Ordering) (l : List α) (h : l ≠ []) :
    (minBy cmp l).isSome = true := by
  match l, h with
  | x :: xs, _ => simp [minBy]

theorem compute_relative_speed_eq (results : List BenchmarkResult) (f : BenchmarkResult)
    (hmin : minBy compare_mean_time results = some f) :
    compute_relative_speed results = some (results.map fun result =>
      { result := result
        relative_speed := F.div result.mean f.mean
        relative_speed_stddev :=
          F.mul (F.div result.mean f.mean)
            (F.sqrt (F.add (F.powi2 (F.div result.stddev result.mean))
              (F.powi2 (F.div f.stddev f.mean))))
        percent_change := F.div (F.mul (F.val 100) (F.sub result.mean f.mean)) result.mean
        is_fastest := BenchmarkResult.beq result f }) := by
  simp [compute_relative_speed, hmin]

theorem countP_beq_eq_one (l : List BenchmarkResult) (x : BenchmarkResult)
    (hx : x ∈ l) (hnodup : l.Nodup) (hfin : ∀ r ∈ l, NaNFree r) :
    l.countP (fun r => BenchmarkResult.beq r x) = 1 := by
  induction l with
  | nil => simp at hx
  | cons a t ih =>
      rw [List.countP_cons]
      rcases List.mem_cons.mp hx with heq | hxt
      · subst heq
        have ha : BenchmarkResult.beq x x = true := (beq_true_iff x x (hfin x (by simp))).mpr rfl
        have hzero : t.countP (fun r => BenchmarkResult.beq r x) = 0 := by
          apply List.countP_eq_zero.mpr
          intro r hrr
          have hra : x ≠ r := by
            intro h
            exact (List.nodup_cons.mp hnodup).1 (h ▸ hrr)
          simp [beq_true_iff r x (hfin r (by simp [hrr])), hra]
        simp [ha, hzero]
      · have hne : x ≠ a := by
          intro h
          exact (List.nodup_cons.mp hnodup).1 (h ▸ hxt)
        have hax : BenchmarkResult.beq a x = false := by
          cases hbe : BenchmarkResult.beq a x with
          | false => rfl
          | true => exact absurd ((beq_true_iff a x (hfin a (by simp))).mp hbe) hne
        rw [ih hxt (List.nodup_cons.mp hnodup).2 (fun r hrr => hfin r (by simp [hrr]))]
        simp [hax]

/-! Lemmas about the tokenizer. -/

theorem tokAux_append (buf s : List Char) :
    ∀ buf1, tokAux (buf1 ++ buf) s = List.modifyHead (fun t => buf1 ++ t) (tokAux buf s) := by
  induction buf, s using tokAux.induct with
  | case1 buf => intro buf1; simp [tokAux]
  | case2 buf => intro buf1; simp [tokAux]
  | case3 buf c2 rest2 h ih => intro buf1; simp [tokAux, h, ih]
  | case4 buf c2 rest2 h ih => intro buf1; simp [tokAux, h, ih]
  | case5 buf rest2 ih => intro buf1; simp [tokAux]
  | case6 buf c2 rest2 h1 h2 ih => intro buf1; simp [tokAux, h1, h2, ih]

theorem tokAux_length (buf s : List Char) :
    (tokAux buf s).length = unescapedCommas s + 1 := by
  induction buf, s using tokAux.induct with
  | case1 buf => simp [tokAux, unescapedCommas]
  | case2 buf => simp [tokAux, unescapedCommas]
  | case3 buf c2 rest2 h ih => simp [tokAux, unescapedCommas, h, ih]
  | case4 buf c2 rest2 h ih => simp [tokAux, unescapedCommas, h, ih]
  | case5 buf rest2 ih => simp [tokAux, unescapedCommas, ih]
  | case6 buf c2 rest2 h1 h2 ih => simp [tokAux, unescapedCommas, h1, h2, ih]

theorem tokAux_trailing_comma (buf s : List Char) :
    endsInOpenEscape s = false → tokAux buf (s ++ [',']) = tokAux buf s ++ [[]] := by
  induction buf, s using tokAux.induct with
  | case1 buf => intro h; simp [tokAux]
  | case2 buf => intro h; simp [endsInOpenEscape] at h
  | case3 buf c2 rest2 h ih =>
      intro hopen
      simp only [endsInOpenEscape] at hopen
      simp [tokAux, h, ih hopen]
  | case4 buf c2 rest2 h ih =>
      intro hopen
      simp only [endsInOpenEscape] at hopen
      simp [tokAux, h, ih hopen]
  | case5 buf rest2 ih =>
      intro hopen
      simp only [endsInOpenEscape] at hopen
      simp [tokAux, ih hopen]
  | case6 buf c2 rest2 h1 h2 ih =>
      intro hopen
      simp only [endsInOpenEscape, h1] at hopen
      simp [tokAux, h1, h2, ih hopen]

theorem tokAux_plain (s : List Char) (h : ∀ c ∈ s, c ≠ ',' ∧ c ≠ '\\') :
    ∀ buf, tokAux buf s = [buf ++ s] := by
  induction s with
  | nil => intro buf; simp [tokAux]
  | cons c rest ih =>
      intro buf
      obtain ⟨hc1, hc2⟩ := h c (by simp)
      have hrest : ∀ x ∈ rest, x ≠ ',' ∧ x ≠ '\\' := fun x hx => h x (by simp [hx])
      simp [tokAux, hc1, hc2, ih hrest]

/-- C4: a backslash followed by a comma or another backslash appends exactly
that literal character to the current token (the head token of the rest of the
tokenization), consuming both characters, so an escaped comma never separates;
a backslash followed by any other character appends the backslash and that
character verbatim; a lone backslash at the end of input appends itself. -/
theorem C4_escape_semantics (rest : List Char) (c : Char) (hc : c ≠ ',') (hb : c ≠ '\\') :
    tokenize ('\\' :: ',' :: rest) = List.modifyHead (fun t => ',' :: t) (tokenize rest) ∧
    tokenize ('\\' :: '\\' :: rest) = List.modifyHead (fun t => '\\' :: t) (tokenize rest) ∧
    tokenize ('\\' :: c :: rest) = List.modifyHead (fun t => '\\' :: c :: t) (tokenize rest) ∧
    (∀ buf, tokAux buf ['\\'] = [buf ++ ['\\']]) ∧
    tokenize ['\\'] = [['\\']] := by
  refine ⟨?_, ?_, ?_, fun buf => by simp [tokAux], by simp [tokenize, tokAux]⟩
  · simpa [tokenize, tokAux] using tokAux_append [] rest [',']
  · simpa [tokenize, tokAux] using tokAux_append [] rest ['\\']
  · simpa [tokenize, tokAux, hc, hb] using tokAux_append [] rest ['\\', c]

/-- Witness for C4 at a concrete input. -/
theorem C4_witness :
    ('n' : Char) ≠ ',' ∧ ('n' : Char) ≠ '\\' ∧
    (tokenize ('\\' :: ',' :: ['x']) = List.modifyHead (fun t => ',' :: t) (tokenize ['x']) ∧
     tokenize ('\\' :: '\\' :: ['x']) = List.modifyHead (fun t => '\\' :: t) (tokenize ['x']) ∧
     tokenize ('\\' :: 'n' :: ['x']) = List.modifyHead (fun t => '\\' :: 'n' :: t) (tokenize ['x']) ∧
     (∀ buf, tokAux buf ['\\'] = [buf ++ ['\\']]) ∧
     tokenize ['\\'] = [['\\']]) :=
  ⟨by decide, by decide, C4_escape_semantics ['x'] 'n' (by decide) (by decide)⟩

/-- C5: the number of tokens is always the number of unescaped commas plus
one; the final (possibly empty) buffer is always pushed, so the empty string
tokenizes to one empty token, and a leading or trailing unescaped comma
contributes an empty token on its side. -/
theorem C5_token_count (s : List Char) :
    (tokenize s).length = unescapedCommas s + 1 ∧
    tokenize ([] : List Char) = [[]] ∧
    tokenize (',' :: s) = [] :: tokenize s ∧
    (endsInOpenEscape s = false → tokenize (s ++ [',']) = tokenize s ++ [[]]) :=
  ⟨tokAux_length [] s, by simp [tokenize, tokAux], by simp [tokenize, tokAux],
    fun h => tokAux_trailing_comma [] s h⟩

/-- Witness for C5 at a concrete input. -/
theorem C5_witness :
    ((tokenize ['a', ',', 'b']).length = unescapedCommas ['a', ',', 'b'] + 1 ∧
     tokenize ([] : List Char) = [[]] ∧
     tokenize (',' :: ['a', ',', 'b']) = [] :: tokenize ['a', ',', 'b']) ∧
    endsInOpenEscape ['a', ',', 'b'] = false ∧
    tokenize (['a', ',', 'b'] ++ [',']) = tokenize ['a', ',', 'b'] ++ [[]] :=
  ⟨⟨(C5_token_count ['a', ',', 'b']).1, (C5_token_count ['a', ',', 'b']).2.1,
    (C5_token_count ['a', ',', 'b']).2.2.1⟩, by decide,
    (C5_token_count ['a', ',', 'b']).2.2.2 (by decide)⟩

/-- C9: a string with no comma and no backslash tokenizes to the one-element
sequence holding exactly that string. -/
theorem C9_tokenize_plain (s : List Char) (h : ∀ c ∈ s, c ≠ ',' ∧ c ≠ '\\') :
    tokenize s = [s] := by
  simpa [tokenize] using tokAux_plain s h []

/-- Witness for C9 at a concrete input. -/
theorem C9_witness :
    (∀ c ∈ ['a', 'b', 'c'], c ≠ ',' ∧ c ≠ '\\') ∧
    tokenize ['a', 'b', 'c'] = [['a', 'b', 'c']] :=
  ⟨by decide, C9_tokenize_plain ['a', 'b', 'c'] (by decide)⟩

/-! The claims about the relative-speed calculator and the reporter. -/

theorem compute_relative_speed_singleton (r : BenchmarkResult) (m d : ℝ)
    (hm : r.mean = F.val m) (hm0 : 0 < m) (hd : r.stddev = F.val d) (hd0 : 0 ≤ d)
    (hfin : NaNFree r) :
    compute_relative_speed [r] = some
      [{ result := r, relative_speed := F.val 1,
         relative_speed_stddev := F.val (Real.sqrt 2 * (d / m)),
         percent_change := F.val 0, is_fastest := true }] := by
  have hmne : m ≠ 0 := ne_of_gt hm0
  have hmin : minBy compare_mean_time [r] = some r := by simp [minBy]
  rw [compute_relative_speed_eq [r] r hmin]
  have e1 : F.div r.mean r.mean = F.val 1 := by
    rw [hm, F.div_val _ _ hmne, div_self hmne]
  have e2 : F.powi2 (F.div r.stddev r.mean) = F.val ((d / m) ^ 2) := by
    rw [hm, hd, F.div_val _ _ hmne, F.powi2_val]
  have e3 : F.sqrt (F.add (F.val ((d / m) ^ 2)) (F.val ((d / m) ^ 2))) =
      F.val (Real.sqrt 2 * (d / m)) := by
    rw [F.add_val, F.sqrt_val _ (by positivity)]
    congr 1
    rw [show (d / m) ^ 2 + (d / m) ^ 2 = 2 * (d / m) ^ 2 by ring]
    rw [Real.sqrt_mul (by norm_num) ((d / m) ^ 2)]
    rw [Real.sqrt_sq (by positivity)]
  have e4 : F.div (F.mul (F.val 100) (F.sub r.mean r.mean)) r.mean = F.val 0 := by
    rw [hm, F.sub_val, F.mul_val, F.div_val _ _ hmne]
    norm_num
  have e5 : BenchmarkResult.beq r r = true := (beq_true_iff r r hfin).mpr rfl
  simp only [List.map_cons, List.map_nil, e1, e2, e3, e4, e5]
  simp [F.mul_val, one_mul]

/-- C1 (amended): on a singleton input with positive finite mean m, finite
non-negative stddev d and no NaN field, compute_relative_speed returns one
annotated result with relative_speed 1.0, percent_change 0.0, is_fastest true,
and relative_speed_stddev equal to sqrt 2 times d / m — which is 0.0 exactly
when d is 0, not in general as the original claim stated. -/
theorem C1_singleton (r : BenchmarkResult) (m d : ℝ)
    (hm : r.mean = F.val m) (hm0 : 0 < m) (hd : r.stddev = F.val d) (hd0 : 0 ≤ d)
    (hfin : NaNFree r) :
    compute_relative_speed [r] = some
      [{ result := r, relative_speed := F.val 1,
         relative_speed_stddev := F.val (Real.sqrt 2 * (d / m)),
         percent_change := F.val 0, is_fastest := true }] :=
  compute_relative_speed_singleton r m d hm hm0 hd hd0 hfin

/-- C1 counterexample: on the singleton with mean 1 and stddev 1 the
propagated relative-speed stddev is sqrt 2, which is not 0.0 as claimed. -/
theorem C1_counterexample :
    compute_relative_speed [sampleResult] = some
      [{ result := sampleResult, relative_speed := F.val 1,
         relative_speed_stddev := F.val (Real.sqrt 2), percent_change := F.val 0,
         is_fastest := true }] ∧ F.val (Real.sqrt 2) ≠ F.val 0 := by
  constructor
  · have h := compute_relative_speed_singleton sampleResult 1 1 rfl one_pos rfl zero_le_one
      sampleResult_nanFree
    simpa using h
  · intro h
    have h2 : Real.sqrt 2 = 0 := F.val.inj h
    have h3 : (0:ℝ) < Real.sqrt 2 := Real.sqrt_pos.mpr (by norm_num)
    rw [h2] at h3
    exact lt_irrefl 0 h3

/-- Witness for C1 at a concrete input. -/
theorem C1_witness :
    sampleResult.mean = F.val 1 ∧ (0:ℝ) < 1 ∧ sampleResult.stddev = F.val 1 ∧ (0:ℝ) ≤ 1 ∧
    NaNFree sampleResult ∧
    compute_relative_speed [sampleResult] = some
      [{ result := sampleResult, relative_speed := F.val 1,
         relative_speed_stddev := F.val (Real.sqrt 2 * ((1:ℝ) / 1)),
         percent_change := F.val 0, is_fastest := true }] :=
  ⟨rfl, one_pos, rfl, zero_le_one, sampleResult_nanFree,
    C1_singleton sampleResult 1 1 rfl one_pos rfl zero_le_one sampleResult_nanFree⟩

/-- C2: the comparator is a total function that treats incomparable means
(NaN) as equal, so the minimum selection of compute_relative_speed succeeds on
every non-empty input and the sorted report of write_benchmark_comparison on
every input of length at least two. -/
theorem C2_comparator_total :
    (∀ l r : BenchmarkResult, F.partCmp l.mean r.mean = none →
      compare_mean_time l r = Ordering.eq) ∧
    (∀ results : List BenchmarkResult, results ≠ [] →
      (compute_relative_speed results).isSome = true) ∧
    (∀ results : List BenchmarkResult, 2 ≤ results.length →
      (write_benchmark_comparison results).isSome = true) := by
  have hsome : ∀ results : List BenchmarkResult, results ≠ [] →
      (compute_relative_speed results).isSome = true := by
    intro results h
    obtain ⟨f, hf⟩ := Option.isSome_iff_exists.mp (minBy_isSome compare_mean_time results h)
    rw [compute_relative_speed_eq results f hf]
    rfl
  refine ⟨?_, hsome, ?_⟩
  · intro l r h
    simp [compare_mean_time, h]
  · intro results h2
    have hne : results ≠ [] := by
      intro e
      subst e
      simp at h2
    obtain ⟨f, hf⟩ := Option.isSome_iff_exists.mp (minBy_isSome compare_mean_time results hne)
    rw [write_benchmark_comparison, if_neg (by omega), compute_relative_speed_eq results f hf]
    rw [Option.some_bind]
    set srt := (results.map fun result =>
      { result := result
        relative_speed := F.div result.mean f.mean
        relative_speed_stddev :=
          F.mul (F.div result.mean f.mean)
            (F.sqrt (F.add (F.powi2 (F.div result.stddev result.mean))
              (F.powi2 (F.div f.stddev f.mean))))
        percent_change := F.div (F.mul (F.val 100) (F.sub result.mean f.mean)) result.mean
        is_fastest := BenchmarkResult.beq result f
        : BenchmarkResultWithRelativeSpeed }).mergeSort
      (fun l r => compare_mean_time l.result r.result != Ordering.gt) with hsrt
    have hlen : srt.length = results.length := by
      rw [hsrt, List.length_mergeSort, List.length_map]
    cases hc : srt with
    | nil =>
        rw [hc] at hlen
        simp at hlen
        omega
    | cons a t => simp

/-- Witness for C2 at concrete inputs, among them one with a NaN mean. -/
theorem C2_witness :
    F.partCmp nanResult.mean nanResult.mean = none ∧
    compare_mean_time nanResult nanResult = Ordering.eq ∧
    ([sampleResult] : List BenchmarkResult) ≠ [] ∧
    (compute_relative_speed [sampleResult]).isSome = true ∧
    2 ≤ ([sampleResult, sampleResult2] : List BenchmarkResult).length ∧
    (write_benchmark_comparison [sampleResult, sampleResult2]).isSome = true :=
  ⟨rfl, C2_comparator_total.1 nanResult nanResult rfl, by simp,
    C2_comparator_total.2.1 [sampleResult] (by simp), by simp,
    C2_comparator_total.2.2 [sampleResult, sampleResult2] (by simp)⟩

/-- C8: with fewer than two results write_benchmark_comparison prints nothing
and returns normally, and on the empty input it does not step into
compute_relative_speed, whose own value there is the modelled panic. -/
theorem C8_write_comparison_noop (results : List BenchmarkResult)
    (h : results.length < 2) :
    write_benchmark_comparison results = some ComparisonOutput.noOutput ∧
    (results = [] → compute_relative_speed results = none) := by
  refine ⟨?_, ?_⟩
  · rw [write_benchmark_comparison, if_pos h]
  · rintro rfl
    rfl

/-- Witness for C8 at concrete inputs. -/
theorem C8_witness :
    ([sampleResult] : List BenchmarkResult).length < 2 ∧
    write_benchmark_comparison [sampleResult] = some ComparisonOutput.noOutput ∧
    ([] : List BenchmarkResult).length < 2 ∧
    write_benchmark_comparison [] = some ComparisonOutput.noOutput ∧
    compute_relative_speed ([] : List BenchmarkResult) = none :=
  ⟨by simp, (C8_write_comparison_noop [sampleResult] (by simp)).1,
    by simp, (C8_write_comparison_noop [] (by simp)).1,
    (C8_write_comparison_noop [] (by simp)).2 rfl⟩

/-- C3: on any non-empty input whose means are positive finite and whose
stddevs are finite, compute_relative_speed succeeds and is the index-aligned
map sending each result to the claimed ratio, percent-change and
error-propagation formulas relative to a minimum-mean element. -/
theorem C3_relative_speed_formula (results : List BenchmarkResult) (hne : results ≠ [])
    (hm : ∀ r ∈ results, ∃ m, r.mean = F.val m ∧ 0 < m)
    (hs : ∀ r ∈ results, ∃ sd, r.stddev = F.val sd) :
    ∃ fastest, fastest ∈ results ∧
      (∀ r ∈ results, fastest.mean.toReal ≤ r.mean.toReal) ∧
      compute_relative_speed results = some (results.map fun r =>
        { result := r
          relative_speed := F.val (r.mean.toReal / fastest.mean.toReal)
          relative_speed_stddev := F.val (r.mean.toReal / fastest.mean.toReal *
            Real.sqrt ((r.stddev.toReal / r.mean.toReal) ^ 2 +
              (fastest.stddev.toReal / fastest.mean.toReal) ^ 2))
          percent_change := F.val
            (100 * (r.mean.toReal - fastest.mean.toReal) / r.mean.toReal)
          is_fastest := BenchmarkResult.beq r fastest }) := by
  obtain ⟨f, hmin, hfmem, hfle⟩ := minBy_mean_spec results hne
    (fun r hrr => (hm r hrr).elim fun m hmm => ⟨m, hmm.1⟩)
  refine ⟨f, hfmem, hfle, ?_⟩
  rw [compute_relative_speed_eq results f hmin]
  congr 1
  apply List.map_congr_left
  intro r hrr
  obtain ⟨mr, hmr, hmr0⟩ := hm r hrr
  obtain ⟨sr, hsr⟩ := hs r hrr
  obtain ⟨mf, hmf, hmf0⟩ := hm f hfmem
  obtain ⟨sf, hsf⟩ := hs f hfmem
  have hmrne : mr ≠ 0 := ne_of_gt hmr0
  have hmfne : mf ≠ 0 := ne_of_gt hmf0
  simp [hmr, hmf, hsr, hsf, F.toReal_val]
  refine ⟨F.div_val mr mf hmfne, ?_, ?_⟩
  · rw [F.div_val mr mf hmfne, F.div_val sr mr hmrne, F.div_val sf mf hmfne, F.powi2_val,
      F.powi2_val, F.add_val, F.sqrt_val _ (by positivity), F.mul_val]
  · rw [F.sub_val mr mf, F.mul_val, F.div_val _ _ hmrne]

/-- Witness for C3 at a concrete two-element input. -/
theorem C3_witness :
    (([sampleResult2, sampleResult] : List BenchmarkResult) ≠ [] ∧
     (∀ r ∈ [sampleResult2, sampleResult], ∃ m, r.mean = F.val m ∧ 0 < m) ∧
     (∀ r ∈ [sampleResult2, sampleResult], ∃ sd, r.stddev = F.val sd)) ∧
    (∃ fastest, fastest ∈ [sampleResult2, sampleResult] ∧
      (∀ r ∈ [sampleResult2, sampleResult], fastest.mean.toReal ≤ r.mean.toReal) ∧
      compute_relative_speed [sampleResult2, sampleResult] =
        some ([sampleResult2, sampleResult].map fun r =>
        { result := r
          relative_speed := F.val (r.mean.toReal / fastest.mean.toReal)
          relative_speed_stddev := F.val (r.mean.toReal / fastest.mean.toReal *
            Real.sqrt ((r.stddev.toReal / r.mean.toReal) ^ 2 +
              (fastest.stddev.toReal / fastest.mean.toReal) ^ 2))
          percent_change := F.val
            (100 * (r.mean.toReal - fastest.mean.toReal) / r.mean.toReal)
          is_fastest := BenchmarkResult.beq r fastest })) :=
  ⟨⟨by simp, by
      intro r hrr
      rcases List.mem_cons.mp hrr with rfl | hrr2
      · exact ⟨2, rfl, by norm_num⟩
      · rcases List.mem_cons.mp hrr2 with rfl | h
        · exact ⟨1, rfl, by norm_num⟩
        · simp at h, by
      intro r hrr
      rcases List.mem_cons.mp hrr with rfl | hrr2
      · exact ⟨1, rfl⟩
      · rcases List.mem_cons.mp hrr2 with rfl | h
        · exact ⟨1, rfl⟩
        · simp at h⟩,
    C3_relative_speed_formula [sampleResult2, sampleResult] (by simp)
      (by
        intro r hrr
        rcases List.mem_cons.mp hrr with rfl | hrr2
        · exact ⟨2, rfl, by norm_num⟩
        · rcases List.mem_cons.mp hrr2 with rfl | h
          · exact ⟨1, rfl, by norm_num⟩
          · simp at h)
      (by
        intro r hrr
        rcases List.mem_cons.mp hrr with rfl | hrr2
        · exact ⟨1, rfl⟩
        · rcases List.mem_cons.mp hrr2 with rfl | h
          · exact ⟨1, rfl⟩
          · simp at h)⟩

/-- C6: every annotated result has relative speed at least 1.0, and any
annotated element whose underlying mean is minimal has relative speed exactly
1.0 and percent change exactly 0.0. -/
theorem C6_relative_speed_ge_one (results : List BenchmarkResult) (hne : results ≠ [])
    (hm : ∀ r ∈ results, ∃ m, r.mean = F.val m ∧ 0 < m) :
    ∃ out, compute_relative_speed results = some out ∧
      (∀ a ∈ out, ∃ x, a.relative_speed = F.val x ∧ 1 ≤ x) ∧
      (∀ a ∈ out, (∀ r ∈ results, a.result.mean.toReal ≤ r.mean.toReal) →
        a.relative_speed = F.val 1 ∧ a.percent_change = F.val 0) := by
  obtain ⟨f, hmin, hfmem, hfle⟩ := minBy_mean_spec results hne
    (fun r hrr => (hm r hrr).elim fun m hmm => ⟨m, hmm.1⟩)
  obtain ⟨mf, hmf, hmf0⟩ := hm f hfmem
  refine ⟨_, compute_relative_speed_eq results f hmin, ?_, ?_⟩
  · intro a ha
    obtain ⟨r, hrr, rfl⟩ := List.mem_map.mp ha
    obtain ⟨mr, hmr, hmr0⟩ := hm r hrr
    refine ⟨mr / mf, ?_, ?_⟩
    · simp only []
      rw [hmr, hmf, F.div_val _ _ (ne_of_gt hmf0)]
    · have hle : mf ≤ mr := by
        have h := hfle r hrr
        rw [hmr, hmf] at h
        simpa [F.toReal_val] using h
      exact (one_le_div hmf0).mpr hle
  · intro a ha hminimal
    obtain ⟨r, hrr, rfl⟩ := List.mem_map.mp ha
    obtain ⟨mr, hmr, hmr0⟩ := hm r hrr
    have h1 : mr ≤ mf := by
      have h := hminimal f hfmem
      simp only [] at h
      rw [hmr, hmf] at h
      simpa [F.toReal_val] using h
    have h2 : mf ≤ mr := by
      have h := hfle r hrr
      rw [hmr, hmf] at h
      simpa [F.toReal_val] using h
    have heq : mr = mf := le_antisymm h1 h2
    constructor
    · simp only []
      rw [hmr, hmf, F.div_val _ _ (ne_of_gt hmf0), heq, div_self (ne_of_gt hmf0)]
    · simp only []
      rw [hmr, hmf, F.sub_val, F.mul_val, F.div_val _ _ (ne_of_gt hmr0), heq]
      norm_num

/-- Witness for C6 at a concrete two-element input. -/
theorem C6_witness :
    (([sampleResult2, sampleResult] : List BenchmarkResult) ≠ [] ∧
     (∀ r ∈ [sampleResult2, sampleResult], ∃ m, r.mean = F.val m ∧ 0 < m)) ∧
    (∃ out, compute_relative_speed [sampleResult2, sampleResult] = some out ∧
      (∀ a ∈ out, ∃ x, a.relative_speed = F.val x ∧ 1 ≤ x) ∧
      (∀ a ∈ out, (∀ r ∈ [sampleResult2, sampleResult],
          a.result.mean.toReal ≤ r.mean.toReal) →
        a.relative_speed = F.val 1 ∧ a.percent_change = F.val 0)) :=
  ⟨⟨by simp, by
      intro r hrr
      rcases List.mem_cons.mp hrr with rfl | hrr2
      · exact ⟨2, rfl, by norm_num⟩
      · rcases List.mem_cons.mp hrr2 with rfl | h
        · exact ⟨1, rfl, by norm_num⟩
        · simp at h⟩,
    C6_relative_speed_ge_one [sampleResult2, sampleResult] (by simp)
      (by
        intro r hrr
        rcases List.mem_cons.mp hrr with rfl | hrr2
        · exact ⟨2, rfl, by norm_num⟩
        · rcases List.mem_cons.mp hrr2 with rfl | h
          · exact ⟨1, rfl, by norm_num⟩
          · simp at h)⟩

/-- C7: is_fastest is value equality of the full record with the selected
minimum-mean result: on NaN-free records it is true exactly for the elements
field-for-field equal to the selected fastest record, hence for exactly one
element when the records are pairwise distinct in value, and for every tied
identical record otherwise. -/
theorem C7_is_fastest_value_equality (results : List BenchmarkResult) (hne : results ≠ [])
    (hfin : ∀ r ∈ results, NaNFree r) :
    ∃ fastest, minBy compare_mean_time results = some fastest ∧ fastest ∈ results ∧
      (∀ r ∈ results, fastest.mean.toReal ≤ r.mean.toReal) ∧
      ∃ out, compute_relative_speed results = some out ∧
        (∀ a ∈ out, a.is_fastest = BenchmarkResult.beq a.result fastest) ∧
        (∀ a ∈ out, a.result = fastest → a.is_fastest = true) ∧
        (List.Pairwise (fun a b => BenchmarkResult.beq a b = false) results →
          out.countP (fun a => a.is_fastest) = 1) := by
  obtain ⟨f, hmin, hfmem, hfle⟩ := minBy_mean_spec results hne
    (fun r hrr => (hfin r hrr).1)
  refine ⟨f, hmin, hfmem, hfle, _, compute_relative_speed_eq results f hmin, ?_, ?_, ?_⟩
  · intro a ha
    obtain ⟨r, hrr, rfl⟩ := List.mem_map.mp ha
    simp
  · intro a ha heq
    obtain ⟨r, hrr, rfl⟩ := List.mem_map.mp ha
    simp only [] at heq ⊢
    exact (beq_true_iff r f (hfin r hrr)).mpr heq.symm
  · intro hpair
    have hnodup : results.Nodup := by
      refine hpair.imp_of_mem ?_
      intro a b ha hb hab
      rintro rfl
      have htrue := (beq_true_iff a a (hfin a ha)).mpr rfl
      rw [hab] at htrue
      exact absurd htrue (by decide)
    rw [List.countP_map]
    have : ((fun a : BenchmarkResultWithRelativeSpeed => a.is_fastest) ∘ fun r =>
        ({ result := r
           relative_speed := F.div r.mean f.mean
           relative_speed_stddev :=
             F.mul (F.div r.mean f.mean)
               (F.sqrt (F.add (F.powi2 (F.div r.stddev r.mean))
                 (F.powi2 (F.div f.stddev f.mean))))
           percent_change := F.div (F.mul (F.val 100) (F.sub r.mean f.mean)) r.mean
           is_fastest := BenchmarkResult.beq r f } : BenchmarkResultWithRelativeSpeed)) =
        fun r => BenchmarkResult.beq r f := rfl
    rw [this]
    exact countP_beq_eq_one results f hfmem hnodup hfin

/-- Witness for C7 at a concrete two-element input. -/
theorem C7_witness :
    (([sampleResult, sampleResult2] : List BenchmarkResult) ≠ [] ∧
     (∀ r ∈ [sampleResult, sampleResult2], NaNFree r)) ∧
    (∃ fastest, minBy compare_mean_time [sampleResult, sampleResult2] = some fastest ∧
      fastest ∈ [sampleResult, sampleResult2] ∧
      (∀ r ∈ [sampleResult, sampleResult2], fastest.mean.toReal ≤ r.mean.toReal) ∧
      ∃ out, compute_relative_speed [sampleResult, sampleResult2] = some out ∧
        (∀ a ∈ out, a.is_fastest = BenchmarkResult.beq a.result fastest) ∧
        (∀ a ∈ out, a.result = fastest → a.is_fastest = true) ∧
        (List.Pairwise (fun a b => BenchmarkResult.beq a b = false)
            [sampleResult, sampleResult2] →
          out.countP (fun a => a.is_fastest) = 1)) :=
  ⟨⟨by simp, by
      intro r hrr
      rcases List.mem_cons.mp hrr with rfl | hrr2
      · exact sampleResult_nanFree
      · rcases List.mem_cons.mp hrr2 with rfl | h
        · exact sampleResult2_nanFree
        · simp at h⟩,
    C7_is_fastest_value_equality [sampleResult, sampleResult2] (by simp)
      (by
        intro r hrr
        rcases List.mem_cons.mp hrr with rfl | hrr2
        · exact sampleResult_nanFree
        · rcases List.mem_cons.mp hrr2 with rfl | h
          · exact sampleResult2_nanFree
          · simp at h)⟩

theorem maxFold_spec (xs : List F) :
    ∀ a : ℝ, (∀ v ∈ xs, F.IsVal v) →
    ∃ m, xs.foldl (fun acc y => acc.bind fun x =>
        (F.partCmp y x).map fun o => if o = Ordering.lt then x else y) (some (F.val a)) =
      some (F.val m) ∧ (m = a ∨ F.val m ∈ xs) ∧ a ≤ m ∧ ∀ v ∈ xs, v.toReal ≤ m := by
  induction xs with
  | nil => intro a _; exact ⟨a, rfl, Or.inl rfl, le_refl a, by simp⟩
  | cons y ys ih =>
      intro a hv
      obtain ⟨b, rfl⟩ := hv y (by simp)
      have hys : ∀ v ∈ ys, F.IsVal v := fun v hvv => hv v (by simp [hvv])
      have hstep : ((some (F.val a)).bind fun x =>
          (F.partCmp (F.val b) x).map fun o => if o = Ordering.lt then x else F.val b) =
          some (F.val (if b < a then a else b)) := by
        simp only [Option.some_bind, F.partCmp, Option.map_some]
        by_cases h1 : b < a
        · simp [h1]
        · by_cases h2 : b = a <;> simp [h1, h2]
      obtain ⟨m, hfold, hmem, hle, hall⟩ := ih (if b < a then a else b) hys
      refine ⟨m, ?_, ?_, ?_, ?_⟩
      · rw [List.foldl_cons, hstep]
        exact hfold
      · rcases hmem with heq | hmm
        · by_cases h1 : b < a
          · rw [if_pos h1] at heq
            exact Or.inl heq
          · rw [if_neg h1] at heq
            exact Or.inr (by simp [heq])
        · exact Or.inr (by simp [hmm])
      · have : a ≤ if b < a then a else b := by
          by_cases h1 : b < a
          · simp [h1]
          · simp [h1, not_lt.mp h1]
        exact le_trans this hle
      · intro v hvv
        rcases List.mem_cons.mp hvv with rfl | hvm
        · have : b ≤ if b < a then a else b := by
            by_cases h1 : b < a
            · simp [h1, le_of_lt h1]
            · simp [h1]
          simpa [F.toReal_val] using le_trans this hle
        · exact hall v hvm

theorem minFold_spec (xs : List F) :
    ∀ a : ℝ, (∀ v ∈ xs, F.IsVal v) →
    ∃ m, xs.foldl (fun acc y => acc.bind fun x =>
        (F.partCmp y x).map fun o => if o = Ordering.lt then y else x) (some (F.val a)) =
      some (F.val m) ∧ (m = a ∨ F.val m ∈ xs) ∧ m ≤ a ∧ ∀ v ∈ xs, m ≤ v.toReal := by
  induction xs with
  | nil => intro a _; exact ⟨a, rfl, Or.inl rfl, le_refl a, by simp⟩
  | cons y ys ih =>
      intro a hv
      obtain ⟨b, rfl⟩ := hv y (by simp)
      have hys : ∀ v ∈ ys, F.IsVal v := fun v hvv => hv v (by simp [hvv])
      have hstep : ((some (F.val a)).bind fun x =>
          (F.partCmp (F.val b) x).map fun o => if o = Ordering.lt then F.val b else x) =
          some (F.val (if b < a then b else a)) := by
        simp only [Option.some_bind, F.partCmp, Option.map_some]
        by_cases h1 : b < a
        · simp [h1]
        · by_cases h2 : b = a <;> simp [h1, h2]
      obtain ⟨m, hfold, hmem, hle, hall⟩ := ih (if b < a then b else a) hys
      refine ⟨m, ?_, ?_, ?_, ?_⟩
      · rw [List.foldl_cons, hstep]
        exact hfold
      · rcases hmem with heq | hmm
        · by_cases h1 : b < a
          · rw [if_pos h1] at heq
            exact Or.inr (by simp [heq])
          · rw [if_neg h1] at heq
            exact Or.inl heq
        · exact Or.inr (by simp [hmm])
      · have : (if b < a then b else a) ≤ a := by
          by_cases h1 : b < a
          · simp [h1, le_of_lt h1]
          · simp [h1]
        exact le_trans hle this
      · intro v hvv
        rcases List.mem_cons.mp hvv with rfl | hvm
        · have : (if b < a then b else a) ≤ b := by
            by_cases h1 : b < a
            · simp [h1]
            · simp [h1, not_lt.mp h1]
          simpa [F.toReal_val] using le_trans hle this
        · exact hall v hvm

/-- C10: on a non-empty NaN-free slice the max helper returns an element of
the slice at least every element, the min helper an element at most every
element; in particular neither reaches its panicking unwrap branches. -/
theorem C10_max_min_spec (vals : List F) (hne : vals ≠ [])
    (hfin : ∀ v ∈ vals, F.IsVal v) :
    (∃ m, Hyperfine.max vals = some (F.val m) ∧ F.val m ∈ vals ∧
      ∀ v ∈ vals, v.toReal ≤ m) ∧
    (∃ m, Hyperfine.min vals = some (F.val m) ∧ F.val m ∈ vals ∧
      ∀ v ∈ vals, m ≤ v.toReal) := by
  match vals, hne with
  | x :: xs, _ =>
      obtain ⟨a, rfl⟩ := hfin x (by simp)
      have hxs : ∀ v ∈ xs, F.IsVal v := fun v hvv => hfin v (by simp [hvv])
      constructor
      · obtain ⟨m, hfold, hmem, hle, hall⟩ := maxFold_spec xs a hxs
        refine ⟨m, ?_, ?_, ?_⟩
        · rw [Hyperfine.max]
          exact hfold
        · rcases hmem with rfl | h
          · simp
          · simp [h]
        · intro v hvv
          rcases List.mem_cons.mp hvv with rfl | h
          · simpa [F.toReal_val] using hle
          · exact hall v h
      · obtain ⟨m, hfold, hmem, hle, hall⟩ := minFold_spec xs a hxs
        refine ⟨m, ?_, ?_, ?_⟩
        · rw [Hyperfine.min]
          exact hfold
        · rcases hmem with rfl | h
          · simp
          · simp [h]
        · intro v hvv
          rcases List.mem_cons.mp hvv with rfl | h
          · simpa [F.toReal_val] using hle
          · exact hall v h

/-- Witness for C10 at a concrete input. -/
theorem C10_witness :
    (([F.val 1, F.val 2] : List F) ≠ [] ∧ (∀ v ∈ [F.val 1, F.val 2], F.IsVal v)) ∧
    ((∃ m, Hyperfine.max [F.val 1, F.val 2] = some (F.val m) ∧
        F.val m ∈ [F.val 1, F.val 2] ∧ ∀ v ∈ [F.val 1, F.val 2], v.toReal ≤ m) ∧
     (∃ m, Hyperfine.min [F.val 1, F.val 2] = some (F.val m) ∧
        F.val m ∈ [F.val 1, F.val 2] ∧ ∀ v ∈ [F.val 1, F.val 2], m ≤ v.toReal)) :=
  ⟨⟨by simp, by
      intro v hvv
      rcases List.mem_cons.mp hvv with rfl | hvv2
      · exact ⟨1, rfl⟩
      · rcases List.mem_cons.mp hvv2 with rfl | h
        · exact ⟨2, rfl⟩
        · simp at h⟩,
    C10_max_min_spec [F.val 1, F.val 2] (by simp)
      (by
        intro v hvv
        rcases List.mem_cons.mp hvv with rfl | hvv2
        · exact ⟨1, rfl⟩
        · rcases List.mem_cons.mp hvv2 with rfl | h
          · exact ⟨2, rfl⟩
          · simp at h)⟩

end Hyperfine
